import Mathlib

/-!
# Verification of `simple_parallel` (src/pool.rs, src/lib.rs)

A shallow embedding of the pool engine of the `simple_parallel` crate.

The Rust code runs a supervisor thread that serves "need work" requests
from worker threads in the order they arrive on an mpsc channel.  We make
that concurrency explicit: a *schedule* `σ : List Nat` records, in order,
which worker's request the supervisor served.  Given a schedule, every
loop in the code (the controller loop, each worker's pull loop, the two
result iterators) is a deterministic recursive function, translated
clause by clause from `pool.rs`.  Arrival order on the shared result
channel of `unordered_map` is likewise an explicit permutation parameter.
-/

namespace SimpleParallel

/-- Mirrors `struct Packet<T>` (pool.rs 472-476): an index into the original
sequence plus an optional payload; `data = none` is the failure sentinel. -/
structure Packet (β : Type) where
  idx : Nat
  data : Option β
deriving Repr, DecidableEq

/-- Mirrors `struct Pool` (pool.rs 72-76).  The two channels are represented
elsewhere (by schedules and outcome values); the pool state that the
operations consult is the fixed worker count `n_threads`. -/
structure Pool where
  n_threads : Nat
deriving Repr, DecidableEq

/-- The configuration error the specification posits for pool creation
(spec §6, §7).  `pool.rs` has no such error type; we introduce it only so
that the spec's claim "`new` fails with ConfigurationError if
`n_threads == 0`" can be stated against the code. -/
inductive ConfigurationError where
  | zeroThreads
deriving Repr, DecidableEq

/-- Rust `Pool::new` (pool.rs 145-193): unconditionally builds the channels,
spawns the supervisor with `n_threads` workers, and returns the pool.
There is no check on `n_threads`. -/
def Pool.new (n_threads : Nat) : Pool :=
  { n_threads := n_threads }

/-- Function `Pool.new` viewed through the spec's result type: since the code has
no failure path at all, the result is `.ok` for every argument. -/
def poolNewResult (n_threads : Nat) : Except ConfigurationError Pool :=
  .ok (Pool.new n_threads)

/-- Mirrors `struct WorkerId` (pool.rs 77-78). -/
structure WorkerId where
  n : Nat
deriving Repr, DecidableEq

/-- Mirrors `struct JobHandle` (pool.rs 92-96): the `wait` flag records
whether a blocking wait on `job_finished` is still owed. -/
structure JobHandle where
  wait : Bool
deriving Repr, DecidableEq

/-- The message the supervisor sends on `job_finished` after a job
(pool.rs 180-182): `Err(())` when the shared panic flag was set by a
worker, `Ok(())` otherwise.  `.error ()` models `Err(())`. -/
def supervisorOutcome (job_panicked : Bool) : Except Unit Unit :=
  if job_panicked then .error () else .ok ()

/-- The handle `execute_nonunsafe` returns (pool.rs 461-465): waiting is
owed from the start. -/
def executeHandle : JobHandle :=
  { wait := true }

/-- Rust `JobHandle::wait` (pool.rs 103-107): clear the flag, then
`job_finished.recv().unwrap().unwrap()` — the received outcome is
propagated unchanged (an `Err` re-raises the job's failure on the
caller's thread).  Returns the propagated outcome together with the
consumed handle. -/
def JobHandle.waitRun (outcome : Except Unit Unit) : Except Unit Unit × JobHandle :=
  (outcome, { wait := false })

/-- Rust `Drop for JobHandle` (pool.rs 109-115): if waiting is still owed,
perform exactly the receive-and-unwrap of `wait`; otherwise do nothing. -/
def JobHandle.dropRun (h : JobHandle) (outcome : Except Unit Unit) : Except Unit Unit :=
  if h.wait then outcome else .ok ()

/-- The closure-factory loop of `execute_nonunsafe` (pool.rs 444):
`(0..n_threads).map(|_| gen_fn(&mut data))` — `gen_fn` is stateful in
`data`, so we thread the state explicitly and collect the produced
worker closures in order. -/
def genAll {A W : Type} (g : A → A × W) : Nat → A → A × List W
  | 0, a => (a, [])
  | n + 1, a =>
    let p := g a
    let r := genAll g n p.1
    (r.1, p.2 :: r.2)

/-- The delivery loop of `execute_nonunsafe` (pool.rs 446-452):
`worker_fns.iter_mut().zip(workers.iter())` sends the `i`-th produced
closure to the `i`-th worker, so a delivery is an (worker index, closure)
pair. -/
def executeDeliver {A W : Type} (g : A → A × W) (n : Nat) (a : A) : List (Nat × W) :=
  ((genAll g n a).2).enum

/-- A worker's main loop from `Pool::new` (pool.rs 167-174): for every
`Work` received on its private channel it invokes the closure once, on
its own `WorkerId`; the invocation trace is the list of results in
receive order. -/
def workerRun {ρ : Type} (received : List (WorkerId → ρ)) (id : WorkerId) : List ρ :=
  received.map (fun w => w id)
/-! ## Pull-based distribution protocol (`for_`, `unordered_map`)

The controller closure of both operations (pool.rs 252-264 and 344-356)
loops: receive a `WorkerId` from `needwork_rx`, reply on that worker's
private channel with `iter.next()`.  The schedule `σ` lists the worker
indices in the order their requests were served; the fused iterator
hands out the items in order and then `none` forever. -/

/-- The controller loop: one `(worker, iter.next())` reply per served
request, consuming the item list in order. -/
def controllerLoop {ι : Type} : List Nat → List ι → List (Nat × Option ι)
  | [], _ => []
  | w :: ws, [] => (w, none) :: controllerLoop ws []
  | w :: ws, it :: its => (w, some it) :: controllerLoop ws its

/-- The replies worker `w` receives on its private channel, in order:
the controller's replies filtered to that worker. -/
def assignmentsOf {ι : Type} (σ : List Nat) (items : List ι) (w : Nat) : List (Option ι) :=
  ((controllerLoop σ items).filter (fun s => s.1 == w)).map (fun s => s.2)

/-- A worker's pull loop in `Pool::for_` (pool.rs 238-250): request work,
then on `Ok(Some(elem))` apply `f` and loop, on `Ok(None)`/`Err` break.
Returns (number of `needwork` requests sent, elements `f` was applied to,
in order).  `f`'s effect is identified by the element it was applied to. -/
def forWorker {α : Type} : List (Option α) → Nat × List α
  | [] => (1, [])
  | none :: _ => (1, [])
  | some e :: rest =>
    let r := forWorker rest
    (r.1 + 1, e :: r.2)

/-- A worker's pull loop in `Pool::unordered_map` (pool.rs 321-342):
request work; on `Ok(Some((idx, elem)))` compute `f elem`, send
`Packet { idx, data: Some(..) }` and break if the send failed (consumer
disconnected); on `Ok(None)`/`Err` break.  `alive` counts how many more
sends the consumer will accept before disconnecting.  Returns (requests
sent, elements `f` was applied to, packets successfully delivered). -/
def uwWorker {α β : Type} (f : α → β) :
    List (Option (Nat × α)) → Nat → Nat × List α × List (Packet β)
  | [], _ => (1, [], [])
  | none :: _, _ => (1, [], [])
  | some (i, e) :: rest, alive =>
    match alive with
    | 0 => (1, [e], [])
    | a + 1 =>
      let r := uwWorker f rest a
      (r.1 + 1, e :: r.2.1, Packet.mk i (some (f e)) :: r.2.2)

/-- The longest prefix of defined replies: what a worker actually
processes before the end-of-work marker. -/
def leadingSomes {ι : Type} : List (Option ι) → List ι
  | [] => []
  | none :: _ => []
  | some x :: rest => x :: leadingSomes rest

/-- The packet a worker builds for the enumerated element `p`
(pool.rs 328-331): index kept, payload always `Some (f elem)`. -/
def mkPacket {α β : Type} (f : α → β) (p : Nat × α) : Packet β :=
  Packet.mk p.1 (some (f p.2))

/-- All packets of one `unordered_map` call, as dictated by the code:
the controller enumerates the input (`iter.into_iter().fuse().enumerate()`,
pool.rs 345) and each element yields exactly one `Some`-payload packet. -/
def mkPackets {α β : Type} (S : List α) (f : α → β) : List (Packet β) :=
  S.enum.map (mkPacket f)

/-- The packets the whole worker pool sends during `unordered_map` with a
consumer that never disconnects (every send is accepted), grouped by
worker.  Worker `w` processes exactly the replies `assignmentsOf σ S.enum w`. -/
def unorderedRun {α β : Type} (n : Nat) (σ : List Nat) (S : List α) (f : α → β) :
    List (Packet β) :=
  (List.range n).flatMap fun w =>
    (uwWorker f (assignmentsOf σ S.enum w) (assignmentsOf σ S.enum w).length).2.2

/-- The elements `f` is applied to during `Pool::for_`, over all workers. -/
def forRun {α : Type} (n : Nat) (σ : List Nat) (S : List α) : List α :=
  (List.range n).flatMap fun w => (forWorker (assignmentsOf σ S w)).2

/-- Rust `UnorderedParMap::next` (pool.rs 499-507) iterated to exhaustion over
a given arrival order: a `Some` payload yields `(idx, value)`, a `None`
payload hits the `"closure panicked"` branch (modelled as `.error`),
channel closure ends the iteration. -/
def unorderedCollect {β : Type} : List (Packet β) → Except Unit (List (Nat × β))
  | [] => .ok []
  | p :: rest =>
    match p.data with
    | some x => (unorderedCollect rest).map (fun l => (p.idx, x) :: l)
    | none => .error ()

/-- The pair `UnorderedParMap::next` yields for one packet, when it does
not hit the failure sentinel. -/
def packetPair {β : Type} (p : Packet β) : Option (Nat × β) :=
  p.data.map (fun x => (p.idx, x))

/-- Whether an `Except` computation finished without the modelled
iterator panicking. -/
def exceptIsOk {ε γ : Type} : Except ε γ → Bool
  | .ok _ => true
  | .error _ => false

/-- Concrete arrival order used to witness the `unordered_map` theorem:
a permutation of the packets of one small run. -/
def arrivalsEx2 : List (Packet Nat) :=
  [Packet.mk 1 (some 8), Packet.mk 0 (some 6), Packet.mk 2 (some 10)]

/-! ## Ordering reconstruction (`map` / `ParMap`)

`Pool::map` (pool.rs 388-400) is `unordered_map` plus a buffer: a
`BinaryHeap<Packet<T>>` whose `Ord` instance reverses the index
comparison (pool.rs 480-483), so `peek`/`pop` return a packet of minimal
`idx`.  We model the heap by its sorted-by-`idx` element list. -/

/-- Rust `BinaryHeap::push` under the reversed `Packet` ordering: insertion
keeping the modelled heap sorted ascending by `idx`. -/
def heapInsert {β : Type} (p : Packet β) : List (Packet β) → List (Packet β)
  | [] => [p]
  | q :: qs => if p.idx ≤ q.idx then p :: q :: qs else q :: heapInsert p qs

/-- Result of one `ParMap::next` call (pool.rs 521-542): either the
channel was exhausted with no match (`next` returns `None`), or the
packet with minimal buffered index, equal to `looking_for`, was popped,
leaving a remaining buffer and remaining arrivals. -/
inductive ParStep (β : Type) where
  | done
  | yield (p : Packet β) (queue arrivals : List (Packet β))
deriving Repr, DecidableEq

/-- One call of `ParMap::next` over arrival order `arr`: if the heap's
minimum has `idx == looking_for`, pop it; otherwise receive the next
packet from the unordered channel into the heap and loop; a closed
channel (`Err(RecvError)`) ends the iteration. -/
def parNext {β : Type} (lf : Nat) : List (Packet β) → List (Packet β) → ParStep β
  | q, [] =>
    match q with
    | p :: qs => if p.idx = lf then .yield p qs [] else .done
    | [] => .done
  | q, a :: rest =>
    match q with
    | p :: qs =>
      if p.idx = lf then .yield p qs (a :: rest)
      else parNext lf (heapInsert a (p :: qs)) rest
    | [] => parNext lf (heapInsert a []) rest

/-- Rust `ParMap::next` iterated to exhaustion: each popped packet's payload
is emitted with `looking_for` advancing by exactly one, and a `None`
payload hits the `"closure panicked"` branch (`.error`).  `fuel` bounds
the number of `next` calls; a run needs at most one call per remaining
element plus one, and the theorems supply sufficient fuel. -/
def parCollect {β : Type} : Nat → Nat → List (Packet β) → List (Packet β) → Except Unit (List β)
  | 0, _, _, _ => .ok []
  | fuel + 1, lf, q, arr =>
    match parNext lf q arr with
    | .done => .ok []
    | .yield p q2 arr2 =>
      match p.data with
      | some x => (parCollect fuel (lf + 1) q2 arr2).map (fun l => x :: l)
      | none => .error ()

/-- The packets still owed to the `ParMap` consumer once the cursor has
reached `lf`: one `Some`-payload packet per remaining input index. -/
def remPackets {α β : Type} (S : List α) (f : α → β) (lf : Nat) : List (Packet β) :=
  (List.enumFrom lf (S.drop lf)).map (mkPacket f)

/-- The modelled heap is sorted ascending by packet index. -/
def HeapSorted {β : Type} (q : List (Packet β)) : Prop :=
  q.Pairwise (fun a b => a.idx ≤ b.idx)

/-- The `ParMap` state invariant of claim C6: every buffered and every
still-arriving packet has index at least `looking_for`, indices are
pairwise distinct, and the buffer is a well-formed (sorted) heap. -/
def ParInv {β : Type} (lf : Nat) (q arr : List (Packet β)) : Prop :=
  (∀ p ∈ q, lf ≤ p.idx) ∧ (∀ p ∈ arr, lf ≤ p.idx)
    ∧ ((q ++ arr).map Packet.idx).Nodup ∧ HeapSorted q

/-- Concrete arrival order used to witness the ordered-`map` theorem. -/
def arrivalsEx1 : List (Packet Nat) :=
  [Packet.mk 2 (some 12), Packet.mk 0 (some 10), Packet.mk 1 (some 11)]


/-! ## C4: behaviour of `Pool::new` on a zero worker count -/

/-- C4, counterexample: the claim says `Pool::new` "fails with a
ConfigurationError when n_threads == 0".  In `pool.rs` (lines 145-193)
`new` has no error path at all: `Pool::new(0)` succeeds and returns a
pool whose worker count is 0. -/
theorem poolNew_zero_returns_pool :
    poolNewResult 0 = .ok { n_threads := 0 } := rfl

/-- C4, amended: `Pool::new` accepts every `n_threads`, including 0,
always succeeding and returning a pool with exactly that worker count;
no configuration error is ever reported. -/
theorem poolNew_total_accepts_all_counts (n : Nat) :
    poolNewResult n = .ok { n_threads := n } ∧ (Pool.new n).n_threads = n :=
  ⟨rfl, rfl⟩

/-! ## C5: `JobHandle::wait` versus implicit release -/

/-- C5: `wait()` consumes the handle (clearing the owed-wait flag) and
propagates the supervisor's reported outcome, re-raising a failure; the
destructor of an un-waited handle (`wait = true`, as returned by
`execute`) performs exactly the same receive and the same propagation,
and the destructor of an already-waited handle does nothing. -/
theorem jobHandle_wait_and_drop_agree :
    (∀ outcome : Except Unit Unit,
        JobHandle.dropRun executeHandle outcome = (JobHandle.waitRun outcome).1)
    ∧ (∀ outcome : Except Unit Unit,
        JobHandle.dropRun (JobHandle.waitRun outcome).2 outcome = .ok ())
    ∧ executeHandle.wait = true
    ∧ (JobHandle.waitRun (supervisorOutcome true)).1 = .error ()
    ∧ (JobHandle.waitRun (supervisorOutcome false)).1 = .ok () := by
  refine ⟨fun outcome => rfl, fun outcome => rfl, rfl, rfl, rfl⟩

/-! ## C7: the low-level `execute` primitive -/

/-- C7: for a job on a pool with `n` workers, the factory `gen_fn` is
run exactly `n` times on the threaded shared data (one closure per run),
the `n` closures are delivered to the `n` pairwise distinct workers
`0, 1, …, n-1` in order, and a worker that receives one closure for the
job invokes it exactly once, on its own id. -/
theorem execute_invokes_factory_once_per_worker {A W : Type}
    (g : A → A × W) (a : A) (n : Nat) :
    (genAll g n a).2.length = n
    ∧ (executeDeliver g n a).map Prod.fst = List.range n
    ∧ ((executeDeliver g n a).map Prod.fst).Nodup
    ∧ (∀ (wf : WorkerId → W) (id : WorkerId), workerRun [wf] id = [wf id]) := by
  have hlen : ∀ (m : Nat) (x : A), (genAll g m x).2.length = m := by
    intro m
    induction m with
    | zero => intro x; rfl
    | succ m ih => intro x; simp [genAll, ih]
  have hfst : (executeDeliver g n a).map Prod.fst = List.range n := by
    unfold executeDeliver
    rw [List.enum_map_fst, hlen]
  refine ⟨hlen n a, hfst, ?_, fun wf id => rfl⟩
  rw [hfst]
  exact List.nodup_range n

/-! ### The served requests partition the dispatched items over workers -/

theorem flatMap_update_congr {γ : Type} (x : γ) (g : Nat → List γ) (k : Nat) :
    ∀ ws : List Nat, k ∉ ws →
      (ws.flatMap fun w => if k = w then x :: g w else g w) = ws.flatMap g := by
  intro ws
  induction ws with
  | nil => intro _; rfl
  | cons w ws ih =>
    intro h
    have hne : k ≠ w := fun hk => h (hk ▸ List.mem_cons_self w ws)
    have hsub : k ∉ ws := fun hk => h (List.mem_cons_of_mem w hk)
    simp only [List.flatMap_cons, if_neg hne, ih hsub]

theorem flatMap_update_perm {γ : Type} (x : γ) (g : Nat → List γ) (k : Nat) :
    ∀ ws : List Nat, k ∈ ws → ws.Nodup →
      (ws.flatMap fun w => if k = w then x :: g w else g w).Perm (x :: ws.flatMap g) := by
  intro ws
  induction ws with
  | nil => intro h; cases h
  | cons w ws ih =>
    intro hmem hnd
    rcases List.nodup_cons.mp hnd with ⟨hw, hnd2⟩
    by_cases hk : k = w
    · subst hk
      rw [List.flatMap_cons, if_pos rfl, flatMap_update_congr x g k ws hw,
        List.flatMap_cons, List.cons_append]
    · have hmem2 : k ∈ ws := by
        rcases List.mem_cons.mp hmem with h | h
        · exact absurd h hk
        · exact h
      rw [List.flatMap_cons, if_neg hk, List.flatMap_cons]
      exact ((ih hmem2 hnd2).append_left (g w)).trans List.perm_middle

/-- Serving the requests in schedule order partitions the reply list by
worker: concatenating each worker's slice recovers (a permutation of)
the whole controller reply list. -/
theorem flatMap_filter_key_perm {γ : Type} (key : γ → Nat) :
    ∀ (l : List γ) (n : Nat), (∀ p ∈ l, key p < n) →
      ((List.range n).flatMap fun w => l.filter (fun s => key s == w)).Perm l := by
  intro l
  induction l with
  | nil =>
    intro n _
    simp
  | cons x xs ih =>
    intro n h
    have hx : key x < n := h x (List.mem_cons_self x xs)
    have hb : ∀ w : Nat, (x :: xs).filter (fun s => key s == w)
        = if key x = w then x :: xs.filter (fun s => key s == w)
          else xs.filter (fun s => key s == w) := by
      intro w
      by_cases hw : key x = w
      · simp [List.filter_cons, hw]
      · simp [List.filter_cons, hw]
    have h1 : ((List.range n).flatMap fun w => (x :: xs).filter (fun s => key s == w)).Perm
        (x :: (List.range n).flatMap fun w => xs.filter (fun s => key s == w)) := by
      simp only [hb]
      exact flatMap_update_perm x _ (key x) (List.range n)
        (List.mem_range.mpr hx) (List.nodup_range n)
    exact h1.trans ((ih n (fun p hp => h p (List.mem_cons_of_mem x hp))).cons x)

theorem flatMap_filterMap {γ δ : Type} (F : Nat → List γ) (p : γ → Option δ) :
    ∀ L : List Nat, (L.flatMap F).filterMap p = L.flatMap (fun x => (F x).filterMap p) := by
  intro L
  induction L with
  | nil => rfl
  | cons a L ih => simp only [List.flatMap_cons, List.filterMap_append, ih]

/-! ### Facts about the controller loop -/

theorem controllerLoop_fst_mem {ι : Type} :
    ∀ (σ : List Nat) (items : List ι) (s : Nat × Option ι),
      s ∈ controllerLoop σ items → s.1 ∈ σ := by
  intro σ
  induction σ with
  | nil => intro items s h; cases h
  | cons w ws ih =>
    intro items s h
    cases items with
    | nil =>
      rcases List.mem_cons.mp h with h | h
      · subst h; exact List.mem_cons_self w ws
      · exact List.mem_cons_of_mem w (ih [] s h)
    | cons it its =>
      rcases List.mem_cons.mp h with h | h
      · subst h; exact List.mem_cons_self w ws
      · exact List.mem_cons_of_mem w (ih its s h)

theorem controllerLoop_nil_snd {ι : Type} :
    ∀ (ws : List Nat) (s : Nat × Option ι), s ∈ controllerLoop ws ([] : List ι) → s.2 = none := by
  intro ws
  induction ws with
  | nil => intro s h; cases h
  | cons w ws ih =>
    intro s h
    rcases List.mem_cons.mp h with h | h
    · subst h; rfl
    · exact ih s h

/-- Once the fused iterator is exhausted every later reply is `none`:
replies are `Some`-then-`None` in service order. -/
theorem controllerLoop_pairwise {ι : Type} (σ : List Nat) :
    ∀ items : List ι, (controllerLoop σ items).Pairwise
      (fun s t => t.2.isSome = true → s.2.isSome = true) := by
  induction σ with
  | nil => intro items; exact List.Pairwise.nil
  | cons w ws ih =>
    intro items
    cases items with
    | nil =>
      refine List.Pairwise.cons ?_ (ih [])
      intro t ht hsome
      rw [controllerLoop_nil_snd ws t ht] at hsome
      cases hsome
    | cons it its =>
      refine List.Pairwise.cons ?_ (ih its)
      intro t _ _
      rfl

/-- Collapsing the controller's replies to their delivered payloads
recovers the dispatched items in order: the first `σ.length` items. -/
theorem controllerLoop_filterMap {ι κ : Type} (h : ι → κ) (σ : List Nat) :
    ∀ items : List ι,
      (controllerLoop σ items).filterMap (fun s => s.2.map h)
        = (items.take σ.length).map h := by
  induction σ with
  | nil => intro items; simp [controllerLoop]
  | cons w ws ih =>
    intro items
    cases items with
    | nil => simp [controllerLoop, List.filterMap_cons, ih]
    | cons it its => simp [controllerLoop, List.filterMap_cons, ih its]

theorem assignmentsOf_pairwise {ι : Type} (σ : List Nat) (items : List ι) (w : Nat) :
    (assignmentsOf σ items w).Pairwise (fun a b => b.isSome = true → a.isSome = true) := by
  unfold assignmentsOf
  refine (List.pairwise_map).mpr ?_
  exact List.Pairwise.sublist (List.filter_sublist _) (controllerLoop_pairwise σ items)

theorem leadingSomes_eq_filterMap {ι : Type} :
    ∀ l : List (Option ι),
      l.Pairwise (fun a b => b.isSome = true → a.isSome = true) →
      leadingSomes l = l.filterMap id := by
  intro l
  induction l with
  | nil => intro _; rfl
  | cons o rest ih =>
    intro hp
    rcases List.pairwise_cons.mp hp with ⟨hhead, htail⟩
    cases o with
    | none =>
      have hnone : ∀ b ∈ rest, b = none := by
        intro b hb
        cases hsome : b.isSome
        · exact Option.not_isSome_iff_eq_none.mp (by simp [hsome])
        · cases hhead b hb hsome
      have : rest.filterMap id = [] := by
        refine List.filterMap_eq_nil_iff.mpr ?_
        intro a ha
        rw [hnone a ha]; rfl
      simp [leadingSomes, List.filterMap_cons, this]
    | some x =>
      simp [leadingSomes, List.filterMap_cons, ih htail]

/-! ### What each worker actually does -/

theorem forWorker_applied {α : Type} :
    ∀ l : List (Option α), (forWorker l).2 = leadingSomes l := by
  intro l
  induction l with
  | nil => rfl
  | cons o rest ih =>
    cases o with
    | none => rfl
    | some e => simp [forWorker, leadingSomes, ih]

/-- With a consumer that accepts at least as many sends as the worker
receives replies, the worker delivers exactly one packet per processed
element. -/
theorem uwWorker_packets {α β : Type} (f : α → β) :
    ∀ (asg : List (Option (Nat × α))) (alive : Nat), asg.length ≤ alive →
      (uwWorker f asg alive).2.2 = (leadingSomes asg).map (mkPacket f) := by
  intro asg
  induction asg with
  | nil => intro alive _; rfl
  | cons o rest ih =>
    intro alive hlen
    cases o with
    | none => rfl
    | some ie =>
      cases alive with
      | zero => simp at hlen
      | succ a =>
        obtain ⟨i, e⟩ := ie
        have : rest.length ≤ a := by simpa using hlen
        simp [uwWorker, leadingSomes, mkPacket, ih a this]

/-- Core protocol theorem: with every send accepted, the multiset of
packets produced across all workers of an `unordered_map` job is exactly
one `Packet idx (some (f elem))` per enumerated input element. -/
theorem unorderedRun_perm {α β : Type} (n : Nat) (σ : List Nat) (S : List α) (f : α → β)
    (hσ : ∀ w ∈ σ, w < n) (hlen : S.length ≤ σ.length) :
    (unorderedRun n σ S f).Perm (mkPackets S f) := by
  have hworker : ∀ w : Nat,
      (uwWorker f (assignmentsOf σ S.enum w) (assignmentsOf σ S.enum w).length).2.2
        = ((controllerLoop σ S.enum).filter (fun s => s.1 == w)).filterMap
            (fun s => s.2.map (mkPacket f)) := by
    intro w
    rw [uwWorker_packets f _ _ (le_refl _),
      leadingSomes_eq_filterMap _ (assignmentsOf_pairwise σ S.enum w)]
    unfold assignmentsOf
    simp [List.filterMap_map, List.map_filterMap, Function.comp]
  unfold unorderedRun
  simp only [hworker]
  rw [← flatMap_filterMap]
  have hpart := flatMap_filter_key_perm (fun s : Nat × Option (Nat × α) => s.1)
    (controllerLoop σ S.enum) n
    (fun p hp => hσ p.1 (controllerLoop_fst_mem σ S.enum p hp))
  refine (hpart.filterMap _).trans ?_
  rw [controllerLoop_filterMap (mkPacket f) σ S.enum,
    List.take_of_length_le (by rw [List.enum_length]; exact hlen)]
  exact List.Perm.refl _

/-- Core protocol theorem for `for_`: the elements `f` is applied to,
over all workers, are exactly the input elements. -/
theorem forRun_perm {α : Type} (n : Nat) (σ : List Nat) (S : List α)
    (hσ : ∀ w ∈ σ, w < n) (hlen : S.length ≤ σ.length) :
    (forRun n σ S).Perm S := by
  have hworker : ∀ w : Nat,
      (forWorker (assignmentsOf σ S w)).2
        = ((controllerLoop σ S).filter (fun s => s.1 == w)).filterMap
            (fun s => s.2.map id) := by
    intro w
    rw [forWorker_applied, leadingSomes_eq_filterMap _ (assignmentsOf_pairwise σ S w)]
    unfold assignmentsOf
    simp [List.filterMap_map, Function.comp]
  unfold forRun
  simp only [hworker]
  rw [← flatMap_filterMap]
  have hpart := flatMap_filter_key_perm (fun s : Nat × Option α => s.1)
    (controllerLoop σ S) n
    (fun p hp => hσ p.1 (controllerLoop_fst_mem σ S p hp))
  refine (hpart.filterMap _).trans ?_
  rw [controllerLoop_filterMap id σ S, List.take_of_length_le hlen, List.map_id]

/-- Workers only ever build packets with a `Some` payload
(pool.rs 329-331). -/
theorem uwWorker_isSome {α β : Type} (f : α → β) :
    ∀ (asg : List (Option (Nat × α))) (alive : Nat) (p : Packet β),
      p ∈ (uwWorker f asg alive).2.2 → p.data.isSome = true := by
  intro asg
  induction asg with
  | nil => intro alive p hp; cases hp
  | cons o rest ih =>
    intro alive p hp
    cases o with
    | none => cases hp
    | some ie =>
      obtain ⟨i, e⟩ := ie
      cases alive with
      | zero => cases hp
      | succ a =>
        rcases List.mem_cons.mp (by simpa [uwWorker] using hp) with h | h
        · rw [h]; rfl
        · exact ih a p h

theorem unorderedCollect_of_isSome {β : Type} :
    ∀ arr : List (Packet β), (∀ p ∈ arr, p.data.isSome = true) →
      unorderedCollect arr = .ok (arr.filterMap packetPair) := by
  intro arr
  induction arr with
  | nil => intro _; rfl
  | cons p rest ih =>
    intro h
    obtain ⟨x, hx⟩ := Option.isSome_iff_exists.mp (h p (List.mem_cons_self p rest))
    have ht := ih (fun q hq => h q (List.mem_cons_of_mem p hq))
    simp [unorderedCollect, hx, packetPair, List.filterMap_cons, ht, Except.map]

/-! ## C2: `unordered_map` yields each indexed result exactly once -/

/-- C2: for any worker count, any request schedule long enough to serve
every element, and any arrival order `ρ` on the shared result channel,
iterating `UnorderedParMap::next` to exhaustion succeeds and yields, in
some order, exactly the pairs `(i, f (S[i]))`, each input index exactly
once. -/
theorem unordered_map_yields_index_pairs {α β : Type} (n : Nat) (σ : List Nat)
    (S : List α) (f : α → β) (ρ : List (Packet β))
    (hn : 1 ≤ n) (hσ : ∀ w ∈ σ, w < n) (hlen : S.length ≤ σ.length)
    (hρ : ρ.Perm (unorderedRun n σ S f)) :
    unorderedCollect ρ = .ok (ρ.filterMap packetPair)
    ∧ (ρ.filterMap packetPair).Perm (S.enum.map (fun p => (p.1, f p.2))) := by
  have hperm : ρ.Perm (mkPackets S f) := hρ.trans (unorderedRun_perm n σ S f hσ hlen)
  constructor
  · refine unorderedCollect_of_isSome ρ ?_
    intro p hp
    have hm : p ∈ mkPackets S f := hperm.mem_iff.mp hp
    obtain ⟨q, _, hq⟩ := List.mem_map.mp hm
    rw [← hq]; rfl
  · refine (hperm.filterMap packetPair).trans ?_
    unfold mkPackets
    rw [List.filterMap_map]
    have hcomp : (packetPair ∘ mkPacket f : Nat × α → Option (Nat × β))
        = some ∘ (fun q : Nat × α => (q.1, f q.2)) := rfl
    rw [hcomp, List.filterMap_eq_map]

/-- C2 witness: two workers, schedule `[0,1,0,1,0]`, input `[3,4,5]`,
`f = (· * 2)`, arrival order `1, 0, 2`. -/
theorem unordered_map_yields_index_pairs_witness :
    arrivalsEx2.Perm (unorderedRun 2 [0, 1, 0, 1, 0] [3, 4, 5] (fun x => x * 2))
    ∧ (unorderedCollect arrivalsEx2 = .ok (arrivalsEx2.filterMap packetPair)
      ∧ (arrivalsEx2.filterMap packetPair).Perm
          ([3, 4, 5].enum.map (fun p => (p.1, (fun x => x * 2) p.2)))) :=
  ⟨by decide,
    unordered_map_yields_index_pairs 2 [0, 1, 0, 1, 0] [3, 4, 5] (fun x => x * 2)
      arrivalsEx2 (by decide) (by decide) (by decide) (by decide)⟩

/-! ## C3: `for_` applies `f` to every element exactly once -/

/-- C3: for any worker count and any request schedule long enough to
serve every element, the elements `f` is applied to during `Pool::for_`,
over all workers, are exactly the input elements — none skipped, none
repeated (multiset equality).  `for_` then blocks in `handle.wait()`
(pool.rs 266), so it returns only once this whole trace has happened. -/
theorem for_applies_each_element_exactly_once {α : Type} (n : Nat) (σ : List Nat)
    (S : List α) (hn : 1 ≤ n) (hσ : ∀ w ∈ σ, w < n) (hlen : S.length ≤ σ.length) :
    (forRun n σ S).Perm S :=
  forRun_perm n σ S hσ hlen

/-- C3 witness: two workers, schedule `[0,1,0,1,0]`, input `[10,20,30]`. -/
theorem for_applies_each_element_exactly_once_witness :
    (∀ w ∈ [0, 1, 0, 1, 0], w < 2)
    ∧ (forRun 2 [0, 1, 0, 1, 0] [10, 20, 30]).Perm [10, 20, 30] :=
  ⟨by decide,
    for_applies_each_element_exactly_once 2 [0, 1, 0, 1, 0] [10, 20, 30]
      (by decide) (by decide) (by decide)⟩

/-! ## C8: a failed result send stops the worker immediately -/

/-- C8: if the consumer disconnects after accepting `alive` packets while
the worker still has elements queued (`alive < items.length`), the worker
applies `f` to the element whose packet send fails and then exits its
pull loop at once: it has issued exactly `alive + 1` work requests (none
after the failed send), applied `f` to exactly the first `alive + 1`
elements (none after the failed send), and delivered exactly the first
`alive` packets. -/
theorem unordered_worker_stops_after_failed_send {α β : Type} (f : α → β) :
    ∀ (items : List (Nat × α)) (alive : Nat), alive < items.length →
      uwWorker f (items.map Option.some) alive
        = (alive + 1, (items.map Prod.snd).take (alive + 1),
            (items.take alive).map (mkPacket f)) := by
  intro items
  induction items with
  | nil => intro alive h; simp at h
  | cons ie rest ih =>
    intro alive h
    obtain ⟨i, e⟩ := ie
    cases alive with
    | zero => simp [uwWorker]
    | succ a =>
      have ha : a < rest.length := by simpa using h
      simp [uwWorker, ih a ha, mkPacket]

/-- C8 witness: three queued elements, consumer accepts one send. -/
theorem unordered_worker_stops_after_failed_send_witness :
    1 < ([(0, 5), (1, 6), (2, 7)] : List (Nat × Nat)).length
    ∧ uwWorker (fun x => x + 10) ([(0, 5), (1, 6), (2, 7)].map Option.some) 1
        = (1 + 1, ([(0, 5), (1, 6), (2, 7)].map Prod.snd).take (1 + 1),
            ([(0, 5), (1, 6), (2, 7)].take 1).map (mkPacket (fun x => x + 10))) :=
  ⟨by decide,
    unordered_worker_stops_after_failed_send (fun x => x + 10)
      [(0, 5), (1, 6), (2, 7)] 1 (by decide)⟩

/-! ### The heap model: insertion keeps a sorted buffer -/

theorem heapInsert_perm {β : Type} (p : Packet β) :
    ∀ q : List (Packet β), (heapInsert p q).Perm (p :: q) := by
  intro q
  induction q with
  | nil => exact List.Perm.refl _
  | cons a qs ih =>
    by_cases h : p.idx ≤ a.idx
    · rw [heapInsert, if_pos h]
    · rw [heapInsert, if_neg h]
      exact (ih.cons a).trans (List.Perm.swap p a qs)

theorem mem_heapInsert {β : Type} {x p : Packet β} {q : List (Packet β)} :
    x ∈ heapInsert p q ↔ x = p ∨ x ∈ q := by
  rw [(heapInsert_perm p q).mem_iff, List.mem_cons]

theorem heapInsert_sorted {β : Type} (p : Packet β) :
    ∀ q : List (Packet β), HeapSorted q → HeapSorted (heapInsert p q) := by
  intro q
  induction q with
  | nil =>
    intro _
    exact List.pairwise_singleton _ _
  | cons a qs ih =>
    intro hs
    rcases List.pairwise_cons.mp hs with ⟨ha, hqs⟩
    by_cases h : p.idx ≤ a.idx
    · rw [heapInsert, if_pos h]
      refine List.Pairwise.cons ?_ hs
      intro b hb
      rcases List.mem_cons.mp hb with hb | hb
      · rw [hb]; exact h
      · exact le_trans h (ha b hb)
    · rw [heapInsert, if_neg h]
      refine List.Pairwise.cons ?_ (ih hqs)
      intro b hb
      rcases mem_heapInsert.mp hb with hb | hb
      · rw [hb]; omega
      · exact ha b hb

/-! ### The packets still owed to the ordered consumer -/

theorem remPackets_zero {α β : Type} (S : List α) (f : α → β) :
    remPackets S f 0 = mkPackets S f := by
  simp only [remPackets, List.drop_zero]
  rfl

theorem remPackets_cons {α β : Type} (S : List α) (f : α → β) (lf : Nat)
    (h : lf < S.length) :
    remPackets S f lf
      = Packet.mk lf (some (f (S.get ⟨lf, h⟩))) :: remPackets S f (lf + 1) := by
  simp only [remPackets]
  rw [List.drop_eq_getElem_cons h]
  rfl

theorem remPackets_nil {α β : Type} (S : List α) (f : α → β) (lf : Nat)
    (h : S.length ≤ lf) : remPackets S f lf = [] := by
  simp [remPackets, List.drop_eq_nil_of_le h]

theorem mem_remPackets {α β : Type} (S : List α) (f : α → β) :
    ∀ (k lf : Nat), S.length - lf ≤ k → ∀ p ∈ remPackets S f lf,
      lf ≤ p.idx ∧ ∃ h : p.idx < S.length, p.data = some (f (S.get ⟨p.idx, h⟩)) := by
  intro k
  induction k with
  | zero =>
    intro lf hk p hp
    rw [remPackets_nil S f lf (by omega)] at hp
    cases hp
  | succ k ih =>
    intro lf hk p hp
    by_cases hlf : lf < S.length
    · rw [remPackets_cons S f lf hlf] at hp
      rcases List.mem_cons.mp hp with hp | hp
      · subst hp
        exact ⟨le_refl lf, hlf, rfl⟩
      · obtain ⟨h1, h2⟩ := ih (lf + 1) (by omega) p hp
        exact ⟨by omega, h2⟩
    · rw [remPackets_nil S f lf (by omega)] at hp
      cases hp

/-- A remaining packet whose index is exactly the cursor is the canonical
packet of that index: index determines payload. -/
theorem mem_remPackets_idx_eq {α β : Type} (S : List α) (f : α → β) (lf : Nat)
    (hlf : lf < S.length) {p : Packet β} (hp : p ∈ remPackets S f lf)
    (hidx : p.idx = lf) :
    p = Packet.mk lf (some (f (S.get ⟨lf, hlf⟩))) := by
  obtain ⟨hge, hlt, hdata⟩ := mem_remPackets S f (S.length - lf) lf (le_refl _) p hp
  cases p with
  | mk i d =>
    simp only at hidx hdata ⊢
    subst hidx
    rw [hdata]

/-! ### Correctness of `ParMap::next` -/

/-- While the cursor has not reached the end of the input, one call of
`ParMap::next` pops exactly the canonical packet of index `looking_for`,
and the packets left in the buffer and the channel are exactly those of
the later indices. -/
theorem parNext_yield_spec {α β : Type} (S : List α) (f : α → β) (lf : Nat)
    (hlf : lf < S.length) :
    ∀ (arr q : List (Packet β)),
      (q ++ arr).Perm (remPackets S f lf) → HeapSorted q →
      ∃ q2 arr2,
        parNext lf q arr = .yield (Packet.mk lf (some (f (S.get ⟨lf, hlf⟩)))) q2 arr2
        ∧ (q2 ++ arr2).Perm (remPackets S f (lf + 1)) ∧ HeapSorted q2 := by
  intro arr
  induction arr with
  | nil =>
    intro q hperm hsort
    cases q with
    | nil =>
      exfalso
      rw [remPackets_cons S f lf hlf] at hperm
      have := hperm.symm.eq_nil
      cases this
    | cons p qs =>
      have hpmem : p ∈ remPackets S f lf := hperm.mem_iff.mp (by simp)
      have hge : lf ≤ p.idx := (mem_remPackets S f _ lf (le_refl _) p hpmem).1
      have hpk : Packet.mk lf (some (f (S.get ⟨lf, hlf⟩))) ∈ (p :: qs) ++ ([] : List (Packet β)) := by
        refine hperm.mem_iff.mpr ?_
        rw [remPackets_cons S f lf hlf]
        exact List.mem_cons_self _ _
      have hle : p.idx ≤ lf := by
        rcases List.mem_cons.mp (by simpa using hpk) with h | h
        · rw [← h]
        · exact (List.pairwise_cons.mp hsort).1 _ h
      have hidx : p.idx = lf := le_antisymm hle hge
      have hpeq := mem_remPackets_idx_eq S f lf hlf hpmem hidx
      refine ⟨qs, [], ?_, ?_, (List.pairwise_cons.mp hsort).2⟩
      · rw [parNext, if_pos hidx, hpeq]
      · have h2 : (p :: (qs ++ ([] : List (Packet β)))).Perm (remPackets S f lf) := by
          simpa using hperm
        rw [remPackets_cons S f lf hlf, hpeq] at h2
        exact h2.cons_inv
  | cons a rest ih =>
    intro q hperm hsort
    cases q with
    | nil =>
      have heq : parNext lf ([] : List (Packet β)) (a :: rest) = parNext lf [a] rest := by
        rw [parNext]
        rfl
      have hperm2 : ([a] ++ rest).Perm (remPackets S f lf) := by simpa using hperm
      obtain ⟨q2, arr2, h1, h2, h3⟩ := ih [a] hperm2 (List.pairwise_singleton _ _)
      exact ⟨q2, arr2, by rw [heq]; exact h1, h2, h3⟩
    | cons p qs =>
      by_cases hidx : p.idx = lf
      · have hpmem : p ∈ remPackets S f lf := hperm.mem_iff.mp (by simp)
        have hpeq := mem_remPackets_idx_eq S f lf hlf hpmem hidx
        refine ⟨qs, a :: rest, ?_, ?_, (List.pairwise_cons.mp hsort).2⟩
        · rw [parNext, if_pos hidx, hpeq]
        · have h2 : (p :: (qs ++ (a :: rest))).Perm (remPackets S f lf) := by
            simpa using hperm
          rw [remPackets_cons S f lf hlf, hpeq] at h2
          exact h2.cons_inv
      · have heq : parNext lf (p :: qs) (a :: rest)
            = parNext lf (heapInsert a (p :: qs)) rest := by
          rw [parNext, if_neg hidx]
        have hperm2 : ((heapInsert a (p :: qs)) ++ rest).Perm (remPackets S f lf) :=
          (((heapInsert_perm a (p :: qs)).append_right rest).trans
            List.perm_middle.symm).trans hperm
        obtain ⟨q2, arr2, h1, h2, h3⟩ :=
          ih (heapInsert a (p :: qs)) hperm2 (heapInsert_sorted a (p :: qs) hsort)
        exact ⟨q2, arr2, by rw [heq]; exact h1, h2, h3⟩

/-- Once the cursor has passed the last input index nothing is left:
`ParMap::next` observes the closed channel and returns `None`. -/
theorem parNext_done_spec {α β : Type} (S : List α) (f : α → β) (lf : Nat)
    (hlf : S.length ≤ lf) (q arr : List (Packet β))
    (hperm : (q ++ arr).Perm (remPackets S f lf)) :
    parNext lf q arr = .done := by
  rw [remPackets_nil S f lf hlf] at hperm
  rcases List.append_eq_nil.mp hperm.eq_nil with ⟨hq, harr⟩
  subst hq
  subst harr
  rfl

/-- Iterating `ParMap::next` to exhaustion from cursor `lf` yields the
images of the remaining input elements, in input order. -/
theorem parCollect_spec {α β : Type} (S : List α) (f : α → β) :
    ∀ (k lf : Nat) (q arr : List (Packet β)) (fuel : Nat),
      S.length - lf ≤ k → k < fuel →
      (q ++ arr).Perm (remPackets S f lf) → HeapSorted q →
      parCollect fuel lf q arr = .ok ((S.drop lf).map f) := by
  intro k
  induction k with
  | zero =>
    intro lf q arr fuel hk hfuel hperm hsort
    have hlf : S.length ≤ lf := by omega
    cases fuel with
    | zero => omega
    | succ fuel =>
      simp [parCollect, parNext_done_spec S f lf hlf q arr hperm,
        List.drop_eq_nil_of_le hlf]
  | succ k ih =>
    intro lf q arr fuel hk hfuel hperm hsort
    by_cases hlf : lf < S.length
    · obtain ⟨q2, arr2, h1, h2, h3⟩ := parNext_yield_spec S f lf hlf arr q hperm hsort
      cases fuel with
      | zero => omega
      | succ fuel =>
        have hrec := ih (lf + 1) q2 arr2 fuel (by omega) (by omega) h2 h3
        rw [parCollect, h1]
        show Except.map (fun l => f (S.get ⟨lf, hlf⟩) :: l)
            (parCollect fuel (lf + 1) q2 arr2) = _
        rw [hrec, List.drop_eq_getElem_cons hlf]
        rfl
    · have hlf2 : S.length ≤ lf := by omega
      cases fuel with
      | zero => omega
      | succ fuel =>
        simp [parCollect, parNext_done_spec S f lf hlf2 q arr hperm,
          List.drop_eq_nil_of_le hlf2]

/-! ## C1: `map` yields results in input order -/

/-- C1: for every worker count ≥ 1, every request schedule long enough
to serve each element, and every arrival order `ρ` of the unordered
packets, iterating `ParMap::next` (from `looking_for = 0` and an empty
heap) to exhaustion yields exactly `f S[0], f S[1], …, f S[N-1]` and then
ends — the output is in input order regardless of completion order. -/
theorem map_yields_results_in_input_order {α β : Type} (n : Nat) (σ : List Nat)
    (S : List α) (f : α → β) (ρ : List (Packet β)) (fuel : Nat)
    (hn : 1 ≤ n) (hσ : ∀ w ∈ σ, w < n) (hlen : S.length ≤ σ.length)
    (hρ : ρ.Perm (unorderedRun n σ S f)) (hfuel : S.length < fuel) :
    parCollect fuel 0 [] ρ = .ok (S.map f) := by
  have hperm : (([] : List (Packet β)) ++ ρ).Perm (remPackets S f 0) := by
    rw [remPackets_zero]
    simpa using hρ.trans (unorderedRun_perm n σ S f hσ hlen)
  have h := parCollect_spec S f S.length 0 [] ρ fuel (by omega) hfuel hperm
    List.Pairwise.nil
  simpa using h

/-- C1 witness: two workers, schedule `[0,1,0,1,0]`, input `[0,1,2]`,
`f = (· + 10)`, arrival order `2, 0, 1`: the output is `[10, 11, 12]`. -/
theorem map_yields_results_in_input_order_witness :
    arrivalsEx1.Perm (unorderedRun 2 [0, 1, 0, 1, 0] [0, 1, 2] (fun x => x + 10))
    ∧ parCollect 4 0 [] arrivalsEx1 = .ok ([0, 1, 2].map (fun x => x + 10)) :=
  ⟨by decide,
    map_yields_results_in_input_order 2 [0, 1, 0, 1, 0] [0, 1, 2] (fun x => x + 10)
      arrivalsEx1 4 (by decide) (by decide) (by decide) (by decide) (by decide)⟩

/-! ## C6: the `looking_for` cursor invariant of `ParMap` -/

/-- C6: if every buffered and still-arriving packet has index at least
`looking_for` with pairwise distinct indices, then a yielding call of
`ParMap::next` pops exactly the packet whose index equals the
pre-increment cursor, the cursor strictly increases (by exactly one),
and the invariant is re-established at the incremented cursor — in
particular every packet left in the heap has `idx ≥ looking_for + 1`. -/
theorem parMap_looking_for_invariant {β : Type} :
    ∀ (arr q : List (Packet β)) (lf : Nat) (p : Packet β) (q2 arr2 : List (Packet β)),
      ParInv lf q arr → parNext lf q arr = .yield p q2 arr2 →
      p.idx = lf ∧ lf < lf + 1 ∧ ParInv (lf + 1) q2 arr2 := by
  intro arr
  induction arr with
  | nil =>
    intro q lf p q2 arr2 hinv heq
    obtain ⟨hq, harr, hnd, hsort⟩ := hinv
    cases q with
    | nil => cases heq
    | cons p0 qs =>
      by_cases hidx : p0.idx = lf
      · rw [parNext, if_pos hidx] at heq
        cases heq
        have hnd2 : (p.idx :: q2.map Packet.idx).Nodup := by simpa using hnd
        have hnotin := (List.nodup_cons.mp hnd2).1
        refine ⟨hidx, by omega, ?_, ?_, ?_, ?_⟩
        · intro x hx
          have hge : lf ≤ x.idx := hq x (List.mem_cons_of_mem p hx)
          have hne : x.idx ≠ lf := by
            intro hcontra
            refine hnotin ?_
            rw [hidx, ← hcontra]
            exact List.mem_map_of_mem Packet.idx hx
          omega
        · intro x hx
          cases hx
        · simpa using (List.nodup_cons.mp hnd2).2
        · exact (List.pairwise_cons.mp hsort).2
      · rw [parNext, if_neg hidx] at heq
        cases heq
  | cons a rest ih =>
    intro q lf p q2 arr2 hinv heq
    obtain ⟨hq, harr, hnd, hsort⟩ := hinv
    cases q with
    | nil =>
      have heq2 : parNext lf (heapInsert a []) rest = .yield p q2 arr2 := by
        rw [parNext] at heq
        exact heq
      refine ih [a] lf p q2 arr2 ⟨?_, ?_, ?_, ?_⟩ heq2
      · intro x hx
        rcases List.mem_singleton.mp hx with hx
        rw [hx]
        exact harr a (List.mem_cons_self a rest)
      · intro x hx
        exact harr x (List.mem_cons_of_mem a hx)
      · simpa using hnd
      · exact List.pairwise_singleton _ _
    | cons p0 qs =>
      by_cases hidx : p0.idx = lf
      · rw [parNext, if_pos hidx] at heq
        cases heq
        have hnd2 : (p.idx :: (q2 ++ a :: rest).map Packet.idx).Nodup := by
          simpa using hnd
        have hnotin := (List.nodup_cons.mp hnd2).1
        have hbig : ∀ x ∈ q2 ++ a :: rest, lf + 1 ≤ x.idx := by
          intro x hx
          have hge : lf ≤ x.idx := by
            rcases List.mem_append.mp hx with hx | hx
            · exact hq x (List.mem_cons_of_mem p hx)
            · exact harr x hx
          have hne : x.idx ≠ lf := by
            intro hcontra
            refine hnotin ?_
            rw [hidx, ← hcontra]
            exact List.mem_map_of_mem Packet.idx hx
          omega
        refine ⟨hidx, by omega, ?_, ?_, ?_, ?_⟩
        · intro x hx
          exact hbig x (List.mem_append_left _ hx)
        · intro x hx
          exact hbig x (List.mem_append_right _ hx)
        · exact (List.nodup_cons.mp hnd2).2
        · exact (List.pairwise_cons.mp hsort).2
      · have heq2 : parNext lf (heapInsert a (p0 :: qs)) rest = .yield p q2 arr2 := by
          rw [parNext, if_neg hidx] at heq
          exact heq
        have hpermq : ((p0 :: qs) ++ a :: rest).Perm (heapInsert a (p0 :: qs) ++ rest) :=
          List.perm_middle.trans
            ((heapInsert_perm a (p0 :: qs)).append_right rest).symm
        refine ih (heapInsert a (p0 :: qs)) lf p q2 arr2 ⟨?_, ?_, ?_, ?_⟩ heq2
        · intro x hx
          rcases mem_heapInsert.mp hx with hx | hx
          · rw [hx]
            exact harr a (List.mem_cons_self a rest)
          · exact hq x hx
        · intro x hx
          exact harr x (List.mem_cons_of_mem a hx)
        · exact ((hpermq.map Packet.idx).nodup_iff).mp hnd
        · exact heapInsert_sorted a (p0 :: qs) hsort

/-- C6 witness: cursor 1, heap `[idx 1, idx 3]`, one arrival of index 2. -/
theorem parMap_looking_for_invariant_witness :
    ParInv 1 [Packet.mk 1 (some 11), Packet.mk 3 (some 13)] [Packet.mk 2 (some 12)]
    ∧ ((Packet.mk 1 (some 11)).idx = 1 ∧ 1 < 1 + 1
      ∧ ParInv (1 + 1) [Packet.mk 3 (some 13)] [Packet.mk 2 (some 12)]) := by
  have hinv : ParInv 1 [Packet.mk 1 (some 11), Packet.mk 3 (some 13)]
      [Packet.mk 2 (some 12)] := by
    refine ⟨by decide, by decide, by decide, ?_⟩
    refine List.Pairwise.cons (by decide) ?_
    exact List.pairwise_singleton _ _
  refine ⟨hinv, ?_⟩
  exact parMap_looking_for_invariant [Packet.mk 2 (some 12)]
    [Packet.mk 1 (some 11), Packet.mk 3 (some 13)] 1 (Packet.mk 1 (some 11))
    [Packet.mk 3 (some 13)] [Packet.mk 2 (some 12)] hinv (by decide)

/-! ### Packets flowing through `ParMap::next` come from the channel -/

theorem parNext_yield_mem {β : Type} :
    ∀ (arr q : List (Packet β)) (lf : Nat) (p : Packet β) (q2 arr2 : List (Packet β)),
      parNext lf q arr = .yield p q2 arr2 →
      p ∈ q ++ arr ∧ ∀ x ∈ q2 ++ arr2, x ∈ q ++ arr := by
  intro arr
  induction arr with
  | nil =>
    intro q lf p q2 arr2 heq
    cases q with
    | nil => cases heq
    | cons p0 qs =>
      by_cases hidx : p0.idx = lf
      · rw [parNext, if_pos hidx] at heq
        cases heq
        refine ⟨List.mem_append_left _ (List.mem_cons_self p q2), ?_⟩
        intro x hx
        simp only [List.append_nil] at hx ⊢
        exact List.mem_cons_of_mem p hx
      · rw [parNext, if_neg hidx] at heq
        cases heq
  | cons a rest ih =>
    intro q lf p q2 arr2 heq
    have hmem : ∀ (q0 : List (Packet β)) (y : Packet β),
        y ∈ heapInsert a q0 ++ rest → y ∈ q0 ++ a :: rest := by
      intro q0 y hy
      rcases List.mem_append.mp hy with hy | hy
      · rcases mem_heapInsert.mp hy with hy | hy
        · rw [hy]
          exact List.mem_append_right _ (List.mem_cons_self a rest)
        · exact List.mem_append_left _ hy
      · exact List.mem_append_right _ (List.mem_cons_of_mem a hy)
    cases q with
    | nil =>
      have heq2 : parNext lf (heapInsert a []) rest = .yield p q2 arr2 := by
        rw [parNext] at heq
        exact heq
      obtain ⟨h1, h2⟩ := ih (heapInsert a []) lf p q2 arr2 heq2
      exact ⟨hmem [] p h1, fun x hx => hmem [] x (h2 x hx)⟩
    | cons p0 qs =>
      by_cases hidx : p0.idx = lf
      · rw [parNext, if_pos hidx] at heq
        cases heq
        refine ⟨List.mem_append_left _ (List.mem_cons_self p q2), ?_⟩
        intro x hx
        rcases List.mem_append.mp hx with hx | hx
        · exact List.mem_append_left _ (List.mem_cons_of_mem p hx)
        · exact List.mem_append_right _ hx
      · have heq2 : parNext lf (heapInsert a (p0 :: qs)) rest = .yield p q2 arr2 := by
          rw [parNext, if_neg hidx] at heq
          exact heq
        obtain ⟨h1, h2⟩ := ih (heapInsert a (p0 :: qs)) lf p q2 arr2 heq2
        exact ⟨hmem (p0 :: qs) p h1, fun x hx => hmem (p0 :: qs) x (h2 x hx)⟩

/-- If every packet in the buffer and the channel carries a payload, the
`"closure panicked"` branch of `ParMap::next` is never taken. -/
theorem parCollect_isOk {β : Type} :
    ∀ (fuel lf : Nat) (q arr : List (Packet β)),
      (∀ p ∈ q ++ arr, p.data.isSome = true) →
      exceptIsOk (parCollect fuel lf q arr) = true := by
  intro fuel
  induction fuel with
  | zero => intro lf q arr _; rfl
  | succ fuel ih =>
    intro lf q arr h
    cases hnext : parNext lf q arr with
    | done =>
      rw [parCollect, hnext]
      rfl
    | yield p q2 arr2 =>
      obtain ⟨hp, hsub⟩ := parNext_yield_mem arr q lf p q2 arr2 hnext
      obtain ⟨x, hx⟩ := Option.isSome_iff_exists.mp (h p hp)
      have hrec := ih (lf + 1) q2 arr2 (fun y hy => h y (hsub y hy))
      rw [parCollect, hnext]
      show exceptIsOk (match p.data with
          | some x => Except.map (fun l => x :: l) (parCollect fuel (lf + 1) q2 arr2)
          | none => Except.error ()) = true
      rw [hx]
      show exceptIsOk (Except.map (fun l => x :: l) (parCollect fuel (lf + 1) q2 arr2)) = true
      cases hc : parCollect fuel (lf + 1) q2 arr2 with
      | ok l => rfl
      | error e =>
        rw [hc] at hrec
        cases hrec

/-! ## C9: no packet ever carries the failure sentinel -/

/-- C9: workers only ever send packets whose payload is `Some` — the
`uwWorker` loop builds every packet with `data: Some(f(elem))` — so on
any arrival list drawn from worker output (all payloads present) both
failure-sentinel branches are unreachable: `UnorderedParMap::next` and
`ParMap::next` iterate to completion without hitting the
`"closure panicked"` branch. -/
theorem no_failure_sentinel_packets {α β : Type} (f : α → β)
    (asg : List (Option (Nat × α))) (alive : Nat)
    (arr : List (Packet β)) (fuel lf : Nat)
    (harr : (arr.all fun p => p.data.isSome) = true) :
    ((uwWorker f asg alive).2.2.all fun p => p.data.isSome) = true
    ∧ exceptIsOk (unorderedCollect arr) = true
    ∧ exceptIsOk (parCollect fuel lf [] arr) = true := by
  have harr2 : ∀ p ∈ arr, p.data.isSome = true := List.all_eq_true.mp harr
  refine ⟨List.all_eq_true.mpr (fun p hp => uwWorker_isSome f asg alive p hp), ?_, ?_⟩
  · rw [unorderedCollect_of_isSome arr harr2]
    rfl
  · refine parCollect_isOk fuel lf [] arr ?_
    intro p hp
    exact harr2 p (by simpa using hp)

/-- C9 witness: one worker assignment list ending in the stop marker,
and a concrete all-`Some` arrival list. -/
theorem no_failure_sentinel_packets_witness :
    (arrivalsEx2.all fun p => p.data.isSome) = true
    ∧ (((uwWorker (fun x => x + 1) [some (0, 5), none] 7).2.2.all
          fun p => p.data.isSome) = true
      ∧ exceptIsOk (unorderedCollect arrivalsEx2) = true
      ∧ exceptIsOk (parCollect 5 0 [] arrivalsEx2) = true) :=
  ⟨by decide,
    no_failure_sentinel_packets (fun x => x + 1) [some (0, 5), none] 7
      arrivalsEx2 5 0 (by decide)⟩

/-! ## C10: a zero-worker pool degenerates gracefully -/

/-- C10: `Pool::new(0)` succeeds and returns a pool with zero workers.
On such a pool no worker exists to request work, so the controller's
`needwork` channel closes with nothing dispatched: `for_` applies `f` to
no element, `unordered_map` produces no packet, and both result
iterators (over the consequently empty arrival list) terminate at once
with no elements and no failure. -/
theorem zero_worker_pool_is_degenerate {α β : Type} (σ : List Nat) (S : List α)
    (f : α → β) (fuel : Nat) :
    poolNewResult 0 = .ok (Pool.new 0)
    ∧ (Pool.new 0).n_threads = 0
    ∧ forRun 0 σ S = []
    ∧ unorderedRun 0 σ S f = []
    ∧ unorderedCollect ([] : List (Packet β)) = .ok []
    ∧ parCollect fuel 0 ([] : List (Packet β)) [] = .ok [] := by
  refine ⟨rfl, rfl, rfl, rfl, rfl, ?_⟩
  cases fuel with
  | zero => rfl
  | succ fuel => rfl

end SimpleParallel
